import Mathlib

/-!
Verification of the buffer-composition layer of the `bytes` crate:
the `Chain` adapter (`src/buf/chain.rs`), the `Either` dual adapter
(`src/either.rs`) and the byte iterator bridge.

Byte sequences are modelled as `List Nat`; a cursor's mutable position is
modelled by explicit state passing (an operation that mutates the cursor
returns the new cursor value).
-/

namespace BytesVerify

/-- Modelled from the spec: the read-cursor capability contract (spec §6).
The defining trait `Buf` lives in `src/buf/buf_impl.rs`, which is not part
of this source set; only its operation signatures are needed here.
`bytesVectored` takes the number of destination slots and returns the list
of slice views filled (the returned count is its length); `toBytes` returns
the materialized contiguous bytes together with the drained cursor;
`copyToSlice` takes the destination length and returns the bytes copied out
together with the advanced cursor. -/
class Buf (α : Type) where
  remaining : α → Nat
  bytes : α → List Nat
  advance : α → Nat → α
  bytesVectored : α → Nat → List (List Nat)
  toBytes : α → List Nat × α
  copyToSlice : α → Nat → List Nat × α

/-- Modelled from the spec: the write-cursor capability contract (spec §6).
The defining trait `BufMut` lives in `src/buf/buf_mut.rs`, which is not part
of this source set. `bytesMut` is the currently writable region, `putSlice`
writes a slice and advances past it. -/
class BufMut (α : Type) where
  remainingMut : α → Nat
  bytesMut : α → List Nat
  advanceMut : α → Nat → α
  bytesVectoredMut : α → Nat → List (List Nat)
  putSlice : α → List Nat → α

/-- Modelled from the spec: `Buf::has_remaining`, the default method
`self.remaining() > 0` of the trait in `src/buf/buf_impl.rs`. -/
def Buf.hasRemaining [Buf α] (x : α) : Prop :=
  0 < Buf.remaining x

instance [Buf α] (x : α) : Decidable (Buf.hasRemaining x) :=
  inferInstanceAs (Decidable (0 < Buf.remaining x))

/-- Modelled from the spec: `BufMut::has_remaining_mut`, the default method
`self.remaining_mut() > 0` of the trait in `src/buf/buf_mut.rs`. -/
def BufMut.hasRemainingMut [BufMut α] (x : α) : Prop :=
  0 < BufMut.remainingMut x

instance [BufMut α] (x : α) : Decidable (BufMut.hasRemainingMut x) :=
  inferInstanceAs (Decidable (0 < BufMut.remainingMut x))

/-- Modelled from the spec: the drain loop of `BufMut::put` (default method of
the trait in `src/buf/buf_mut.rs`, spec §4.1: "appends all of `second`
(always a copy)"): repeatedly read the source's current slice, append it to
the accumulator and advance the source past it, until the source has no
remaining bytes.  The fuel argument bounds the number of loop iterations;
callers pass the source's `remaining`, which suffices because each iteration
of a contract-abiding cursor consumes a non-empty slice. -/
def putAll [Buf α] : Nat → List Nat → α → List Nat × α
  | 0, acc, x => (acc, x)
  | fuel + 1, acc, x =>
    if Buf.remaining x = 0 then (acc, x)
    else putAll fuel (acc ++ Buf.bytes x) (Buf.advance x (Buf.bytes x).length)

/-- `Chain`, from `src/buf/chain.rs`: two ordered fields `a` (first) and
`b` (second). -/
structure Chain (α β : Type) where
  a : α
  b : β

/-- `Chain::new`, from `src/buf/chain.rs`. -/
def Chain.new (a : α) (b : β) : Chain α β :=
  { a := a, b := b }

/-- `<Chain as Buf>::remaining`, from `src/buf/chain.rs`:
`self.a.remaining() + self.b.remaining()`. -/
def Chain.remaining [Buf α] [Buf β] (c : Chain α β) : Nat :=
  Buf.remaining c.a + Buf.remaining c.b

/-- `<Chain as Buf>::bytes`, from `src/buf/chain.rs`: `self.a.bytes()` if
`self.a.has_remaining()`, else `self.b.bytes()`. -/
def Chain.bytes [Buf α] [Buf β] (c : Chain α β) : List Nat :=
  if Buf.hasRemaining c.a then Buf.bytes c.a else Buf.bytes c.b

/-- `<Chain as Buf>::advance`, from `src/buf/chain.rs`: with
`a_rem = self.a.remaining()`, if `a_rem != 0` and `a_rem >= cnt` advance `a`
by `cnt`; if `a_rem != 0` and `a_rem < cnt` advance `a` by `a_rem` and `b` by
`cnt - a_rem`; if `a_rem == 0` advance `b` by `cnt`. -/
def Chain.advance [Buf α] [Buf β] (c : Chain α β) (cnt : Nat) : Chain α β :=
  let a_rem := Buf.remaining c.a
  if a_rem ≠ 0 then
    if a_rem ≥ cnt then
      { c with a := Buf.advance c.a cnt }
    else
      { a := Buf.advance c.a a_rem, b := Buf.advance c.b (cnt - a_rem) }
  else
    { c with b := Buf.advance c.b cnt }

/-- `<Chain as Buf>::bytes_vectored`, from `src/buf/chain.rs`:
`n = self.a.bytes_vectored(dst); n += self.b.bytes_vectored(&mut dst[n..])`.
The slot array is modelled by its number of free slots; the filled views are
returned in order. -/
def Chain.bytesVectored [Buf α] [Buf β] (c : Chain α β) (slots : Nat) :
    List (List Nat) :=
  let v := Buf.bytesVectored c.a slots
  v ++ Buf.bytesVectored c.b (slots - v.length)

/-- `<Chain as Buf>::to_bytes`, from `src/buf/chain.rs`:
`self.a.to_bytes()` (draining `a`), converted to a mutable buffer
(`try_mut().unwrap_or_else(...)`, a storage conversion with no effect on the
byte content), then `bytes.put(&mut self.b)` (draining `b` into it), then
`freeze()` (again content-identity). -/
def Chain.toBytes [Buf α] [Buf β] (c : Chain α β) : List Nat × Chain α β :=
  let p := Buf.toBytes c.a
  let q := putAll (Buf.remaining c.b) p.1 c.b
  (q.1, { a := p.2, b := q.2 })

/-- `<Chain as BufMut>::remaining_mut`, from `src/buf/chain.rs`. -/
def Chain.remainingMut [BufMut α] [BufMut β] (c : Chain α β) : Nat :=
  BufMut.remainingMut c.a + BufMut.remainingMut c.b

/-- `<Chain as BufMut>::bytes_mut`, from `src/buf/chain.rs`. -/
def Chain.bytesMut [BufMut α] [BufMut β] (c : Chain α β) : List Nat :=
  if BufMut.hasRemainingMut c.a then BufMut.bytesMut c.a else BufMut.bytesMut c.b

/-- `<Chain as BufMut>::advance_mut`, from `src/buf/chain.rs`: identical
drain-first-then-second algorithm as `advance`, over `remaining_mut`. -/
def Chain.advanceMut [BufMut α] [BufMut β] (c : Chain α β) (cnt : Nat) :
    Chain α β :=
  let a_rem := BufMut.remainingMut c.a
  if a_rem ≠ 0 then
    if a_rem ≥ cnt then
      { c with a := BufMut.advanceMut c.a cnt }
    else
      { a := BufMut.advanceMut c.a a_rem, b := BufMut.advanceMut c.b (cnt - a_rem) }
  else
    { c with b := BufMut.advanceMut c.b cnt }

/-- `<Chain as BufMut>::bytes_vectored_mut`, from `src/buf/chain.rs`. -/
def Chain.bytesVectoredMut [BufMut α] [BufMut β] (c : Chain α β) (slots : Nat) :
    List (List Nat) :=
  let v := BufMut.bytesVectoredMut c.a slots
  v ++ BufMut.bytesVectoredMut c.b (slots - v.length)

instance [Buf α] [Buf β] : Buf (Chain α β) where
  remaining := Chain.remaining
  bytes := Chain.bytes
  advance := Chain.advance
  bytesVectored := Chain.bytesVectored
  toBytes := Chain.toBytes
  copyToSlice c len :=
    ((Chain.toBytes c).1.take len, Chain.advance c len)

/-- `Either`, the two-variant tagged union from the external `either` crate,
over which `src/either.rs` implements the cursor capabilities. -/
inductive Either (α β : Type) where
  | left : α → Either α β
  | right : β → Either α β

/-- `<Either as Buf>::remaining`, from `src/either.rs`: match and forward. -/
def Either.remaining [Buf α] [Buf β] : Either α β → Nat
  | .left x => Buf.remaining x
  | .right y => Buf.remaining y

/-- `<Either as Buf>::bytes`, from `src/either.rs`: match and forward. -/
def Either.bytes [Buf α] [Buf β] : Either α β → List Nat
  | .left x => Buf.bytes x
  | .right y => Buf.bytes y

/-- `<Either as Buf>::bytes_vectored`, from `src/either.rs`. -/
def Either.bytesVectored [Buf α] [Buf β] : Either α β → Nat → List (List Nat)
  | .left x, slots => Buf.bytesVectored x slots
  | .right y, slots => Buf.bytesVectored y slots

/-- `<Either as Buf>::advance`, from `src/either.rs`: match and forward,
the mutated wrapped cursor staying in the same variant. -/
def Either.advance [Buf α] [Buf β] : Either α β → Nat → Either α β
  | .left x, cnt => .left (Buf.advance x cnt)
  | .right y, cnt => .right (Buf.advance y cnt)

/-- `<Either as Buf>::copy_to_slice`, from `src/either.rs`. -/
def Either.copyToSlice [Buf α] [Buf β] : Either α β → Nat → List Nat × Either α β
  | .left x, len =>
    let p := Buf.copyToSlice x len
    (p.1, .left p.2)
  | .right y, len =>
    let p := Buf.copyToSlice y len
    (p.1, .right p.2)

/-- `<Either as BufMut>::remaining_mut`, from `src/either.rs`. -/
def Either.remainingMut [BufMut α] [BufMut β] : Either α β → Nat
  | .left x => BufMut.remainingMut x
  | .right y => BufMut.remainingMut y

/-- `<Either as BufMut>::bytes_mut`, from `src/either.rs`. -/
def Either.bytesMut [BufMut α] [BufMut β] : Either α β → List Nat
  | .left x => BufMut.bytesMut x
  | .right y => BufMut.bytesMut y

/-- `<Either as BufMut>::bytes_vectored_mut`, from `src/either.rs`. -/
def Either.bytesVectoredMut [BufMut α] [BufMut β] :
    Either α β → Nat → List (List Nat)
  | .left x, slots => BufMut.bytesVectoredMut x slots
  | .right y, slots => BufMut.bytesVectoredMut y slots

/-- `<Either as BufMut>::advance_mut`, from `src/either.rs`. -/
def Either.advanceMut [BufMut α] [BufMut β] : Either α β → Nat → Either α β
  | .left x, cnt => .left (BufMut.advanceMut x cnt)
  | .right y, cnt => .right (BufMut.advanceMut y cnt)

/-- `<Either as BufMut>::put_slice`, from `src/either.rs`. -/
def Either.putSlice [BufMut α] [BufMut β] : Either α β → List Nat → Either α β
  | .left x, src => .left (BufMut.putSlice x src)
  | .right y, src => .right (BufMut.putSlice y src)

/-- Modelled from the spec: the `ByteSequenceIterator` state (spec §4.4,
`IntoIter` of `src/buf/iter.rs`, which is not part of this source set):
it owns the underlying cursor. -/
structure IntoIter (α : Type) where
  inner : α

/-- `<Chain as IntoIterator>::into_iter`, from `src/buf/chain.rs`:
`IntoIter::new(self)`. -/
def Chain.intoIter (c : Chain α β) : IntoIter (Chain α β) :=
  { inner := c }

/-- Modelled from the spec: one pull of the byte iterator (spec §4.4): if the
cursor has no remaining bytes, terminate; otherwise take the first byte of the
current slice and advance the cursor by one. -/
def IntoIter.next [Buf α] (it : IntoIter α) : Option (Nat × IntoIter α) :=
  if Buf.remaining it.inner = 0 then none
  else some ((Buf.bytes it.inner).headD 0, { inner := Buf.advance it.inner 1 })

/-- Pull up to `fuel` items from the byte iterator, collecting them in order
(the observation of the iterator's produced sequence). -/
def IntoIter.collect [Buf α] : Nat → IntoIter α → List Nat
  | 0, _ => []
  | fuel + 1, it =>
    match it.next with
    | none => []
    | some (b, it2) => b :: IntoIter.collect fuel it2

/-- The byte sequence a read cursor holds, as observed through the capability
contract: repeatedly read the current slice and advance past it.  The fuel
argument bounds the number of observation steps; `remaining` suffices for a
contract-abiding cursor, whose every slice is non-empty. -/
def readout [Buf α] : Nat → α → List Nat
  | 0, _ => []
  | fuel + 1, x =>
    if Buf.remaining x = 0 then []
    else Buf.bytes x ++ readout fuel (Buf.advance x (Buf.bytes x).length)

/-- Drop `n` bytes from the front of a list of slices, removing a slice
entirely when it is consumed in full. -/
def dropChunks : Nat → List (List Nat) → List (List Nat)
  | _, [] => []
  | 0, cs => cs
  | n + 1, c :: cs =>
    if c.length ≤ n + 1 then dropChunks (n + 1 - c.length) cs
    else c.drop (n + 1) :: cs

/-- Modelled from the spec: a concrete model of an arbitrary collaborating
cursor (spec §6's external read/write cursor contract; the concrete storage
types such as `Bytes`/`BytesMut` are excluded from this source set).  A cursor
is characterised by the sequence of slices it exposes: `chunks` are the
not-yet-consumed slices in order. -/
structure ChunkCursor where
  chunks : List (List Nat)

/-- The total remaining byte count of a chunk cursor. -/
def ChunkCursor.remaining (x : ChunkCursor) : Nat :=
  (x.chunks.map List.length).sum

/-- The current slice of a chunk cursor: its first not-yet-consumed slice. -/
def ChunkCursor.bytes (x : ChunkCursor) : List Nat :=
  x.chunks.headD []

/-- Advancing a chunk cursor drops bytes from the front, slice by slice. -/
def ChunkCursor.advance (x : ChunkCursor) (cnt : Nat) : ChunkCursor :=
  { chunks := dropChunks cnt x.chunks }

/-- The flat byte content of a chunk cursor. -/
def ChunkCursor.content (x : ChunkCursor) : List Nat :=
  x.chunks.flatten

/-- A contract-abiding cursor exposes a non-empty slice whenever bytes remain
(spec §6: the view is "non-empty exactly when remaining > 0"); in the chunk
model, every pending slice is non-empty. -/
def ChunkCursor.WF (x : ChunkCursor) : Prop :=
  ∀ c ∈ x.chunks, c ≠ []

instance : Buf ChunkCursor where
  remaining := ChunkCursor.remaining
  bytes := ChunkCursor.bytes
  advance := ChunkCursor.advance
  bytesVectored x slots :=
    if slots = 0 then [] else
    if 0 < ChunkCursor.remaining x then [ChunkCursor.bytes x] else []
  toBytes x := (x.content, { chunks := [] })
  copyToSlice x len := (x.content.take len, ChunkCursor.advance x len)

instance : BufMut ChunkCursor where
  remainingMut := ChunkCursor.remaining
  bytesMut := ChunkCursor.bytes
  advanceMut := ChunkCursor.advance
  bytesVectoredMut x slots :=
    if slots = 0 then [] else
    if 0 < ChunkCursor.remaining x then [ChunkCursor.bytes x] else []
  putSlice x src := ChunkCursor.advance x src.length

/-- The cursor holding the bytes of `"hello"`, as in `tests/test_chain.rs`. -/
def helloCursor : ChunkCursor :=
  { chunks := [[104, 101, 108, 108, 111]] }

/-- The cursor holding the bytes of `"world"`, as in `tests/test_chain.rs`. -/
def worldCursor : ChunkCursor :=
  { chunks := [[119, 111, 114, 108, 100]] }

theorem dropChunks_nil (n : Nat) : dropChunks n [] = [] := by
  cases n <;> rfl

theorem dropChunks_zero (cs : List (List Nat)) : dropChunks 0 cs = cs := by
  cases cs <;> rfl

theorem dropChunks_succ (n : Nat) (c : List Nat) (cs : List (List Nat)) :
    dropChunks (n + 1) (c :: cs)
      = if c.length ≤ n + 1 then dropChunks (n + 1 - c.length) cs
        else c.drop (n + 1) :: cs := rfl

theorem sum_dropChunks (cs : List (List Nat)) :
    ∀ n, ((dropChunks n cs).map List.length).sum
      = (cs.map List.length).sum - n := by
  induction cs with
  | nil => intro n; simp [dropChunks_nil]
  | cons c cs ih =>
    intro n
    cases n with
    | zero => simp [dropChunks_zero]
    | succ m =>
      rw [dropChunks_succ]
      by_cases h : c.length ≤ m + 1
      · rw [if_pos h, ih]
        simp only [List.map_cons, List.sum_cons]
        omega
      · rw [if_neg h]
        simp only [List.map_cons, List.sum_cons, List.length_drop]
        omega

theorem flatten_dropChunks (cs : List (List Nat)) :
    ∀ n, (dropChunks n cs).flatten = cs.flatten.drop n := by
  induction cs with
  | nil => intro n; simp [dropChunks_nil]
  | cons c cs ih =>
    intro n
    cases n with
    | zero => simp [dropChunks_zero]
    | succ m =>
      rw [dropChunks_succ]
      by_cases h : c.length ≤ m + 1
      · rw [if_pos h, ih, List.flatten_cons, List.drop_append_eq_append_drop,
          List.drop_eq_nil_of_le h]
        simp
      · rw [if_neg h, List.flatten_cons, List.flatten_cons,
          List.drop_append_eq_append_drop]
        have h0 : m + 1 - c.length = 0 := by omega
        rw [h0, List.drop_zero]

theorem wf_dropChunks (cs : List (List Nat)) (hwf : ∀ c ∈ cs, c ≠ []) :
    ∀ n, ∀ c ∈ dropChunks n cs, c ≠ [] := by
  induction cs with
  | nil => intro n; simp [dropChunks_nil]
  | cons c cs ih =>
    intro n
    cases n with
    | zero =>
      rw [dropChunks_zero]; exact hwf
    | succ m =>
      rw [dropChunks_succ]
      have hcs : ∀ d ∈ cs, d ≠ [] := fun d hd => hwf d (List.mem_cons_of_mem c hd)
      by_cases h : c.length ≤ m + 1
      · rw [if_pos h]; exact ih hcs _
      · rw [if_neg h]
        intro d hd
        rcases List.mem_cons.mp hd with h1 | h1
        · subst h1
          have : (c.drop (m + 1)).length ≠ 0 := by
            rw [List.length_drop]; omega
          intro hnil
          exact this (by rw [hnil]; rfl)
        · exact hcs d h1

theorem sum_eq_zero_of_wf (cs : List (List Nat)) (hwf : ∀ c ∈ cs, c ≠ [])
    (h : (cs.map List.length).sum = 0) : cs = [] := by
  cases cs with
  | nil => rfl
  | cons c cs =>
    exfalso
    have hc : c ≠ [] := hwf c (List.mem_cons_self c cs)
    have : c.length ≠ 0 := fun h0 => hc (List.eq_nil_of_length_eq_zero h0)
    simp only [List.map_cons, List.sum_cons] at h
    omega

theorem length_le_sum_of_wf (cs : List (List Nat)) (hwf : ∀ c ∈ cs, c ≠ []) :
    cs.length ≤ (cs.map List.length).sum := by
  induction cs with
  | nil => simp
  | cons c cs ih =>
    have hc : c ≠ [] := hwf c (List.mem_cons_self c cs)
    have h1 : 1 ≤ c.length := by
      rcases c with _ | ⟨b, bs⟩
      · exact absurd rfl hc
      · simp
    have hcs : ∀ d ∈ cs, d ≠ [] := fun d hd => hwf d (List.mem_cons_of_mem c hd)
    simp only [List.length_cons, List.map_cons, List.sum_cons]
    have := ih hcs
    omega

theorem dropChunks_head_length (c : List Nat) (cs : List (List Nat))
    (hc : c ≠ []) : dropChunks c.length (c :: cs) = cs := by
  rcases c with _ | ⟨b, bs⟩
  · exact absurd rfl hc
  · rw [List.length_cons, dropChunks_succ]
    have hle : (b :: bs).length ≤ bs.length + 1 := by simp
    rw [if_pos hle, List.length_cons, Nat.sub_self, dropChunks_zero]

theorem buf_remaining_chunk (x : ChunkCursor) : Buf.remaining x = x.remaining := rfl

theorem buf_bytes_chunk (x : ChunkCursor) : Buf.bytes x = x.bytes := rfl

theorem buf_advance_chunk (x : ChunkCursor) (n : Nat) :
    Buf.advance x n = x.advance n := rfl

theorem buf_toBytes_chunk (x : ChunkCursor) :
    Buf.toBytes x = (x.content, ChunkCursor.mk []) := rfl

theorem bufMut_remainingMut_chunk (x : ChunkCursor) :
    BufMut.remainingMut x = x.remaining := rfl

theorem bufMut_advanceMut_chunk (x : ChunkCursor) (n : Nat) :
    BufMut.advanceMut x n = x.advance n := rfl

theorem buf_remaining_chain [Buf α] [Buf β] (c : Chain α β) :
    Buf.remaining c = Chain.remaining c := rfl

theorem buf_bytes_chain [Buf α] [Buf β] (c : Chain α β) :
    Buf.bytes c = Chain.bytes c := rfl

theorem buf_advance_chain [Buf α] [Buf β] (c : Chain α β) (n : Nat) :
    Buf.advance c n = Chain.advance c n := rfl

theorem readout_zero [Buf α] (x : α) : readout 0 x = [] := rfl

theorem readout_succ [Buf α] (fuel : Nat) (x : α) :
    readout (fuel + 1) x
      = if Buf.remaining x = 0 then []
        else Buf.bytes x ++ readout fuel (Buf.advance x (Buf.bytes x).length) := rfl

theorem putAll_succ [Buf α] (fuel : Nat) (acc : List Nat) (x : α) :
    putAll (fuel + 1) acc x
      = if Buf.remaining x = 0 then (acc, x)
        else putAll fuel (acc ++ Buf.bytes x)
          (Buf.advance x (Buf.bytes x).length) := rfl

theorem collect_succ [Buf α] (fuel : Nat) (it : IntoIter α) :
    IntoIter.collect (fuel + 1) it
      = match it.next with
        | none => []
        | some (b, it2) => b :: IntoIter.collect fuel it2 := rfl

theorem chain_advance_first_only [Buf α] [Buf β] (c : Chain α β) (n : Nat)
    (h0 : Buf.remaining c.a ≠ 0) (hn : Buf.remaining c.a ≥ n) :
    Chain.advance c n = { c with a := Buf.advance c.a n } := by
  simp only [Chain.advance]
  rw [if_pos h0, if_pos hn]

theorem chain_advance_split [Buf α] [Buf β] (c : Chain α β) (n : Nat)
    (h0 : Buf.remaining c.a ≠ 0) (hn : ¬ Buf.remaining c.a ≥ n) :
    Chain.advance c n
      = { a := Buf.advance c.a (Buf.remaining c.a),
          b := Buf.advance c.b (n - Buf.remaining c.a) } := by
  simp only [Chain.advance]
  rw [if_pos h0, if_neg hn]

theorem chain_advance_second_only [Buf α] [Buf β] (c : Chain α β) (n : Nat)
    (h0 : Buf.remaining c.a = 0) :
    Chain.advance c n = { c with b := Buf.advance c.b n } := by
  simp only [Chain.advance]
  rw [if_neg (by simpa using h0)]

theorem chunk_remaining_cons (c : List Nat) (cs : List (List Nat)) :
    (ChunkCursor.mk (c :: cs)).remaining
      = c.length + (ChunkCursor.mk cs).remaining := by
  simp [ChunkCursor.remaining]

theorem chunk_remaining_ne_zero (c : List Nat) (cs : List (List Nat))
    (hc : c ≠ []) : (ChunkCursor.mk (c :: cs)).remaining ≠ 0 := by
  rw [chunk_remaining_cons]
  have : c.length ≠ 0 := fun h0 => hc (List.eq_nil_of_length_eq_zero h0)
  omega

theorem chunk_advance_head (c : List Nat) (cs : List (List Nat)) (hc : c ≠ []) :
    (ChunkCursor.mk (c :: cs)).advance c.length = ChunkCursor.mk cs := by
  unfold ChunkCursor.advance
  rw [dropChunks_head_length c cs hc]

theorem content_length (x : ChunkCursor) : x.content.length = x.remaining := by
  simp [ChunkCursor.content, ChunkCursor.remaining, List.length_flatten]

theorem readout_chunk :
    ∀ (fuel : Nat) (cs : List (List Nat)), (∀ c ∈ cs, c ≠ []) →
      cs.length ≤ fuel →
      readout fuel (ChunkCursor.mk cs) = cs.flatten := by
  intro fuel
  induction fuel with
  | zero =>
    intro cs hwf hlen
    have hnil : cs = [] := List.eq_nil_of_length_eq_zero (Nat.le_zero.mp hlen)
    subst hnil
    rfl
  | succ fuel ih =>
    intro cs hwf hlen
    cases cs with
    | nil =>
      have h0 : Buf.remaining (ChunkCursor.mk []) = 0 := rfl
      rw [readout_succ, if_pos h0]
      rfl
    | cons c cs =>
      have hc : c ≠ [] := hwf c (List.mem_cons_self c cs)
      have hcs : ∀ d ∈ cs, d ≠ [] := fun d hd => hwf d (List.mem_cons_of_mem c hd)
      have hrem : Buf.remaining (ChunkCursor.mk (c :: cs)) ≠ 0 := by
        rw [buf_remaining_chunk]
        exact chunk_remaining_ne_zero c cs hc
      rw [readout_succ, if_neg hrem]
      have hbytes : Buf.bytes (ChunkCursor.mk (c :: cs)) = c := rfl
      rw [hbytes, buf_advance_chunk, chunk_advance_head c cs hc,
        ih cs hcs (by simpa using hlen), List.flatten_cons]

theorem readout_chain :
    ∀ (fuel : Nat) (A B : ChunkCursor), A.WF → B.WF →
      A.chunks.length + B.chunks.length ≤ fuel →
      readout fuel (Chain.new A B) = A.content ++ B.content := by
  intro fuel
  induction fuel with
  | zero =>
    intro A B hA hB hlen
    obtain ⟨acs⟩ := A
    obtain ⟨bcs⟩ := B
    have hlen' : acs.length + bcs.length ≤ 0 := hlen
    have ha : acs = [] := List.eq_nil_of_length_eq_zero (by omega)
    have hb : bcs = [] := List.eq_nil_of_length_eq_zero (by omega)
    subst ha; subst hb
    rfl
  | succ fuel ih =>
    intro A B hA hB hlen
    obtain ⟨acs⟩ := A
    cases acs with
    | cons c cs =>
      have hc : c ≠ [] := hA c (List.mem_cons_self c cs)
      have hcs : (ChunkCursor.mk cs).WF :=
        fun d hd => hA d (List.mem_cons_of_mem c hd)
      have harem : Buf.remaining (ChunkCursor.mk (c :: cs)) ≠ 0 := by
        rw [buf_remaining_chunk]
        exact chunk_remaining_ne_zero c cs hc
      have hrem : Buf.remaining (Chain.new (ChunkCursor.mk (c :: cs)) B) ≠ 0 := by
        rw [buf_remaining_chain]
        unfold Chain.remaining
        rw [buf_remaining_chunk]
        have := chunk_remaining_ne_zero c cs hc
        simp only [Chain.new]
        rw [buf_remaining_chunk]
        omega
      rw [readout_succ, if_neg hrem]
      have hbytes : Buf.bytes (Chain.new (ChunkCursor.mk (c :: cs)) B) = c := by
        rw [buf_bytes_chain]
        unfold Chain.bytes
        rw [if_pos (by
          show 0 < Buf.remaining (Chain.new (ChunkCursor.mk (c :: cs)) B).a
          simp only [Chain.new]
          rw [buf_remaining_chunk]
          have := chunk_remaining_ne_zero c cs hc
          omega)]
        rfl
      have hadv : Buf.advance (Chain.new (ChunkCursor.mk (c :: cs)) B) c.length
          = Chain.new (ChunkCursor.mk cs) B := by
        rw [buf_advance_chain,
          chain_advance_first_only _ _ harem (by
            simp only [Chain.new]
            rw [buf_remaining_chunk, chunk_remaining_cons]
            omega)]
        simp only [Chain.new]
        rw [buf_advance_chunk, chunk_advance_head c cs hc]
      rw [hbytes, hadv, ih (ChunkCursor.mk cs) B hcs hB (by
        have hlen' : (c :: cs).length + B.chunks.length ≤ fuel + 1 := hlen
        simp only [List.length_cons] at hlen'
        show cs.length + B.chunks.length ≤ fuel
        omega)]
      simp only [ChunkCursor.content, List.flatten_cons, List.append_assoc]
    | nil =>
      obtain ⟨bcs⟩ := B
      cases bcs with
      | nil =>
        have h0 : Buf.remaining (Chain.new (ChunkCursor.mk []) (ChunkCursor.mk [])) = 0 := rfl
        rw [readout_succ, if_pos h0]
        rfl
      | cons c cs =>
        have hc : c ≠ [] := hB c (List.mem_cons_self c cs)
        have hcs : (ChunkCursor.mk cs).WF :=
          fun d hd => hB d (List.mem_cons_of_mem c hd)
        have hrem : Buf.remaining
            (Chain.new (ChunkCursor.mk []) (ChunkCursor.mk (c :: cs))) ≠ 0 := by
          have h1 : Buf.remaining
              (Chain.new (ChunkCursor.mk []) (ChunkCursor.mk (c :: cs)))
              = (ChunkCursor.mk ([] : List (List Nat))).remaining
                  + (ChunkCursor.mk (c :: cs)).remaining := rfl
          have h2 : (ChunkCursor.mk ([] : List (List Nat))).remaining = 0 := rfl
          have h3 := chunk_remaining_ne_zero c cs hc
          omega
        rw [readout_succ, if_neg hrem]
        have hbytes : Buf.bytes
            (Chain.new (ChunkCursor.mk []) (ChunkCursor.mk (c :: cs))) = c := by
          rw [buf_bytes_chain]
          unfold Chain.bytes
          rw [if_neg (by
            show ¬ 0 < Buf.remaining
              (Chain.new (ChunkCursor.mk []) (ChunkCursor.mk (c :: cs))).a
            simp only [Chain.new]
            rw [buf_remaining_chunk]
            simp [ChunkCursor.remaining])]
          rfl
        have hadv : Buf.advance
            (Chain.new (ChunkCursor.mk []) (ChunkCursor.mk (c :: cs))) c.length
            = Chain.new (ChunkCursor.mk []) (ChunkCursor.mk cs) := by
          rw [buf_advance_chain,
            chain_advance_second_only _ _ (by
              simp only [Chain.new]
              rw [buf_remaining_chunk]
              simp [ChunkCursor.remaining])]
          simp only [Chain.new]
          rw [buf_advance_chunk, chunk_advance_head c cs hc]
        rw [hbytes, hadv,
          ih (ChunkCursor.mk []) (ChunkCursor.mk cs) (by intro d hd; simp at hd)
            hcs (by
              have hlen' : ([] : List (List Nat)).length + (c :: cs).length ≤ fuel + 1 := hlen
              simp only [List.length_cons, List.length_nil] at hlen'
              show ([] : List (List Nat)).length + cs.length ≤ fuel
              simp only [List.length_nil]
              omega)]
        simp only [ChunkCursor.content, List.flatten_cons, List.flatten_nil,
          List.nil_append]

theorem putAll_chunk :
    ∀ (fuel : Nat) (acc : List Nat) (cs : List (List Nat)),
      (∀ c ∈ cs, c ≠ []) → cs.length ≤ fuel →
      putAll fuel acc (ChunkCursor.mk cs)
        = (acc ++ cs.flatten, ChunkCursor.mk []) := by
  intro fuel
  induction fuel with
  | zero =>
    intro acc cs hwf hlen
    have hnil : cs = [] := List.eq_nil_of_length_eq_zero (Nat.le_zero.mp hlen)
    subst hnil
    simp [putAll]
  | succ fuel ih =>
    intro acc cs hwf hlen
    cases cs with
    | nil =>
      have h0 : Buf.remaining (ChunkCursor.mk []) = 0 := rfl
      rw [putAll_succ, if_pos h0]
      simp
    | cons c cs =>
      have hc : c ≠ [] := hwf c (List.mem_cons_self c cs)
      have hcs : ∀ d ∈ cs, d ≠ [] := fun d hd => hwf d (List.mem_cons_of_mem c hd)
      have hrem : Buf.remaining (ChunkCursor.mk (c :: cs)) ≠ 0 := by
        rw [buf_remaining_chunk]
        exact chunk_remaining_ne_zero c cs hc
      rw [putAll_succ, if_neg hrem]
      have hbytes : Buf.bytes (ChunkCursor.mk (c :: cs)) = c := rfl
      rw [hbytes, buf_advance_chunk, chunk_advance_head c cs hc,
        ih (acc ++ c) cs hcs (by
          have hlen' : (c :: cs).length ≤ fuel + 1 := hlen
          simp only [List.length_cons] at hlen'
          omega)]
      simp [List.flatten_cons, List.append_assoc]

theorem collect_chunk :
    ∀ (fuel : Nat) (cs : List (List Nat)), (∀ c ∈ cs, c ≠ []) →
      (cs.map List.length).sum ≤ fuel →
      IntoIter.collect fuel { inner := ChunkCursor.mk cs } = cs.flatten := by
  intro fuel
  induction fuel with
  | zero =>
    intro cs hwf hsum
    have hnil : cs = [] := sum_eq_zero_of_wf cs hwf (Nat.le_zero.mp hsum)
    subst hnil
    rfl
  | succ fuel ih =>
    intro cs hwf hsum
    cases cs with
    | nil =>
      rw [collect_succ]
      have hnext : IntoIter.next
          ({ inner := ChunkCursor.mk [] } : IntoIter ChunkCursor) = none := rfl
      rw [hnext]
      rfl
    | cons c cs =>
      rcases c with _ | ⟨b, bs⟩
      · exact absurd rfl (hwf [] (List.mem_cons_self [] cs))
      have hwftail : ∀ d ∈ dropChunks 1 ((b :: bs) :: cs), d ≠ [] :=
        wf_dropChunks ((b :: bs) :: cs) hwf 1
      have hrem : Buf.remaining (ChunkCursor.mk ((b :: bs) :: cs)) ≠ 0 := by
        rw [buf_remaining_chunk]
        exact chunk_remaining_ne_zero _ cs (by simp)
      have hnext : IntoIter.next
          ({ inner := ChunkCursor.mk ((b :: bs) :: cs) } : IntoIter ChunkCursor)
          = some (b, { inner := ChunkCursor.mk (dropChunks 1 ((b :: bs) :: cs)) }) := by
        simp only [IntoIter.next]
        rw [if_neg hrem]
        rfl
      rw [collect_succ, hnext]
      show b :: IntoIter.collect fuel
          { inner := ChunkCursor.mk (dropChunks 1 ((b :: bs) :: cs)) }
        = ((b :: bs) :: cs).flatten
      rw [ih (dropChunks 1 ((b :: bs) :: cs)) hwftail (by
        have e1 : ((dropChunks 1 ((b :: bs) :: cs)).map List.length).sum
            = (((b :: bs) :: cs).map List.length).sum - 1 := sum_dropChunks _ 1
        have e2 : (((b :: bs) :: cs).map List.length).sum ≠ 0 := by
          simp only [List.map_cons, List.sum_cons, List.length_cons]
          omega
        omega)]
      rw [flatten_dropChunks]
      simp [List.flatten_cons]

theorem collect_chain :
    ∀ (fuel : Nat) (A B : ChunkCursor), A.WF → B.WF →
      A.remaining + B.remaining ≤ fuel →
      IntoIter.collect fuel { inner := Chain.new A B }
        = A.content ++ B.content := by
  intro fuel
  induction fuel with
  | zero =>
    intro A B hA hB hsum
    obtain ⟨acs⟩ := A
    obtain ⟨bcs⟩ := B
    have e1 : (ChunkCursor.mk acs).remaining = (acs.map List.length).sum := rfl
    have e2 : (ChunkCursor.mk bcs).remaining = (bcs.map List.length).sum := rfl
    have hsum' : (ChunkCursor.mk acs).remaining
        + (ChunkCursor.mk bcs).remaining ≤ 0 := hsum
    have ha : acs = [] := sum_eq_zero_of_wf acs (fun d hd => hA d hd) (by omega)
    have hb : bcs = [] := sum_eq_zero_of_wf bcs (fun d hd => hB d hd) (by omega)
    subst ha
    subst hb
    rfl
  | succ fuel ih =>
    intro A B hA hB hsum
    obtain ⟨acs⟩ := A
    cases acs with
    | cons c cs =>
      rcases c with _ | ⟨b, bs⟩
      · exact absurd rfl (hA [] (List.mem_cons_self [] cs))
      have harem : Buf.remaining (ChunkCursor.mk ((b :: bs) :: cs)) ≠ 0 := by
        rw [buf_remaining_chunk]
        exact chunk_remaining_ne_zero _ cs (by simp)
      have hrem : Buf.remaining
          (Chain.new (ChunkCursor.mk ((b :: bs) :: cs)) B) ≠ 0 := by
        have h1 : Buf.remaining (Chain.new (ChunkCursor.mk ((b :: bs) :: cs)) B)
            = (ChunkCursor.mk ((b :: bs) :: cs)).remaining + B.remaining := rfl
        have h3 := chunk_remaining_ne_zero (b :: bs) cs (by simp)
        omega
      have hbytes : Buf.bytes (Chain.new (ChunkCursor.mk ((b :: bs) :: cs)) B)
          = b :: bs := by
        rw [buf_bytes_chain]
        unfold Chain.bytes
        rw [if_pos (by
          show 0 < Buf.remaining (ChunkCursor.mk ((b :: bs) :: cs))
          rw [buf_remaining_chunk]
          have := chunk_remaining_ne_zero (b :: bs) cs (by simp)
          omega)]
        rfl
      have hadv : Buf.advance (Chain.new (ChunkCursor.mk ((b :: bs) :: cs)) B) 1
          = Chain.new (ChunkCursor.mk (dropChunks 1 ((b :: bs) :: cs))) B := by
        rw [buf_advance_chain,
          chain_advance_first_only _ _ harem (by
            show Buf.remaining (ChunkCursor.mk ((b :: bs) :: cs)) ≥ 1
            rw [buf_remaining_chunk]
            have := chunk_remaining_ne_zero (b :: bs) cs (by simp)
            omega)]
        rfl
      have hnext : IntoIter.next
          ({ inner := Chain.new (ChunkCursor.mk ((b :: bs) :: cs)) B }
            : IntoIter (Chain ChunkCursor ChunkCursor))
          = some (b, { inner :=
              Chain.new (ChunkCursor.mk (dropChunks 1 ((b :: bs) :: cs))) B }) := by
        simp only [IntoIter.next]
        rw [if_neg hrem, hbytes, hadv]
        rfl
      rw [collect_succ, hnext]
      show b :: IntoIter.collect fuel
          { inner := Chain.new (ChunkCursor.mk (dropChunks 1 ((b :: bs) :: cs))) B }
        = (ChunkCursor.mk ((b :: bs) :: cs)).content ++ B.content
      rw [ih (ChunkCursor.mk (dropChunks 1 ((b :: bs) :: cs))) B
        (fun d hd => wf_dropChunks _ (fun e he => hA e he) 1 d hd) hB (by
          have e1 : (ChunkCursor.mk (dropChunks 1 ((b :: bs) :: cs))).remaining
              = (((b :: bs) :: cs).map List.length).sum - 1 := sum_dropChunks _ 1
          have e2 : (ChunkCursor.mk ((b :: bs) :: cs)).remaining
              = (((b :: bs) :: cs).map List.length).sum := rfl
          have hsum' : (ChunkCursor.mk ((b :: bs) :: cs)).remaining
              + B.remaining ≤ fuel + 1 := hsum
          have e3 : (((b :: bs) :: cs).map List.length).sum ≠ 0 := by
            simp only [List.map_cons, List.sum_cons, List.length_cons]
            omega
          omega)]
      show b :: ((ChunkCursor.mk (dropChunks 1 ((b :: bs) :: cs))).content
          ++ B.content)
        = (ChunkCursor.mk ((b :: bs) :: cs)).content ++ B.content
      unfold ChunkCursor.content
      rw [flatten_dropChunks]
      simp [List.flatten_cons]
    | nil =>
      obtain ⟨bcs⟩ := B
      cases bcs with
      | nil =>
        rw [collect_succ]
        have hnext : IntoIter.next
            ({ inner := Chain.new (ChunkCursor.mk []) (ChunkCursor.mk []) }
              : IntoIter (Chain ChunkCursor ChunkCursor)) = none := by
          simp only [IntoIter.next]
          rw [if_pos (show Buf.remaining
            (Chain.new (ChunkCursor.mk []) (ChunkCursor.mk [])) = 0 from rfl)]
        rw [hnext]
        rfl
      | cons c cs =>
        rcases c with _ | ⟨b, bs⟩
        · exact absurd rfl (hB [] (List.mem_cons_self [] cs))
        have hrem : Buf.remaining
            (Chain.new (ChunkCursor.mk []) (ChunkCursor.mk ((b :: bs) :: cs)))
            ≠ 0 := by
          have h1 : Buf.remaining
              (Chain.new (ChunkCursor.mk []) (ChunkCursor.mk ((b :: bs) :: cs)))
              = (ChunkCursor.mk ([] : List (List Nat))).remaining
                  + (ChunkCursor.mk ((b :: bs) :: cs)).remaining := rfl
          have h2 : (ChunkCursor.mk ([] : List (List Nat))).remaining = 0 := rfl
          have h3 := chunk_remaining_ne_zero (b :: bs) cs (by simp)
          omega
        have hbytes : Buf.bytes
            (Chain.new (ChunkCursor.mk []) (ChunkCursor.mk ((b :: bs) :: cs)))
            = b :: bs := by
          rw [buf_bytes_chain]
          unfold Chain.bytes
          rw [if_neg (by
            show ¬ 0 < Buf.remaining (ChunkCursor.mk ([] : List (List Nat)))
            simp [buf_remaining_chunk, ChunkCursor.remaining])]
          rfl
        have hadv : Buf.advance
            (Chain.new (ChunkCursor.mk []) (ChunkCursor.mk ((b :: bs) :: cs))) 1
            = Chain.new (ChunkCursor.mk [])
                (ChunkCursor.mk (dropChunks 1 ((b :: bs) :: cs))) := by
          rw [buf_advance_chain,
            chain_advance_second_only _ _
              (show Buf.remaining (ChunkCursor.mk ([] : List (List Nat))) = 0
                from rfl)]
          rfl
        have hnext : IntoIter.next
            ({ inner := Chain.new (ChunkCursor.mk [])
                (ChunkCursor.mk ((b :: bs) :: cs)) }
              : IntoIter (Chain ChunkCursor ChunkCursor))
            = some (b,
                { inner := Chain.new (ChunkCursor.mk [])
                    (ChunkCursor.mk (dropChunks 1 ((b :: bs) :: cs))) }) := by
          simp only [IntoIter.next]
          rw [if_neg hrem, hbytes, hadv]
          rfl
        rw [collect_succ, hnext]
        show b :: IntoIter.collect fuel
            { inner := Chain.new (ChunkCursor.mk [])
                (ChunkCursor.mk (dropChunks 1 ((b :: bs) :: cs))) }
          = (ChunkCursor.mk ([] : List (List Nat))).content
              ++ (ChunkCursor.mk ((b :: bs) :: cs)).content
        rw [ih (ChunkCursor.mk []) (ChunkCursor.mk (dropChunks 1 ((b :: bs) :: cs)))
          (fun d hd => by simp at hd)
          (fun d hd => wf_dropChunks _ (fun e he => hB e he) 1 d hd) (by
            have e1 : (ChunkCursor.mk (dropChunks 1 ((b :: bs) :: cs))).remaining
                = (((b :: bs) :: cs).map List.length).sum - 1 := sum_dropChunks _ 1
            have e2 : (ChunkCursor.mk ((b :: bs) :: cs)).remaining
                = (((b :: bs) :: cs).map List.length).sum := rfl
            have e0 : (ChunkCursor.mk ([] : List (List Nat))).remaining = 0 := rfl
            have hsum' : (ChunkCursor.mk ([] : List (List Nat))).remaining
                + (ChunkCursor.mk ((b :: bs) :: cs)).remaining ≤ fuel + 1 := hsum
            omega)]
        show b :: ((ChunkCursor.mk ([] : List (List Nat))).content
            ++ (ChunkCursor.mk (dropChunks 1 ((b :: bs) :: cs))).content)
          = (ChunkCursor.mk ([] : List (List Nat))).content
              ++ (ChunkCursor.mk ((b :: bs) :: cs)).content
        unfold ChunkCursor.content
        rw [flatten_dropChunks]
        simp [List.flatten_cons]

theorem chain_advanceMut_first_only [BufMut α] [BufMut β] (c : Chain α β)
    (n : Nat) (h0 : BufMut.remainingMut c.a ≠ 0)
    (hn : BufMut.remainingMut c.a ≥ n) :
    Chain.advanceMut c n = { c with a := BufMut.advanceMut c.a n } := by
  simp only [Chain.advanceMut]
  rw [if_pos h0, if_pos hn]

theorem chain_advanceMut_split [BufMut α] [BufMut β] (c : Chain α β) (n : Nat)
    (h0 : BufMut.remainingMut c.a ≠ 0) (hn : ¬ BufMut.remainingMut c.a ≥ n) :
    Chain.advanceMut c n
      = { a := BufMut.advanceMut c.a (BufMut.remainingMut c.a),
          b := BufMut.advanceMut c.b (n - BufMut.remainingMut c.a) } := by
  simp only [Chain.advanceMut]
  rw [if_pos h0, if_neg hn]

theorem chain_advanceMut_second_only [BufMut α] [BufMut β] (c : Chain α β)
    (n : Nat) (h0 : BufMut.remainingMut c.a = 0) :
    Chain.advanceMut c n = { c with b := BufMut.advanceMut c.b n } := by
  simp only [Chain.advanceMut]
  rw [if_neg (by simpa using h0)]

theorem chunk_advance_zero (x : ChunkCursor) : x.advance 0 = x := by
  obtain ⟨cs⟩ := x
  unfold ChunkCursor.advance
  rw [dropChunks_zero]

theorem chunk_remaining_advance (x : ChunkCursor) (n : Nat) :
    (x.advance n).remaining = x.remaining - n := by
  obtain ⟨cs⟩ := x
  exact sum_dropChunks cs n

theorem chunk_content_advance (x : ChunkCursor) (n : Nat) :
    (x.advance n).content = x.content.drop n := by
  obtain ⟨cs⟩ := x
  exact flatten_dropChunks cs n

theorem chunk_wf_advance (x : ChunkCursor) (hx : x.WF) (n : Nat) :
    (x.advance n).WF := by
  obtain ⟨cs⟩ := x
  exact wf_dropChunks cs (fun d hd => hx d hd) n

theorem chunk_length_le_remaining (x : ChunkCursor) (hx : x.WF) :
    x.chunks.length ≤ x.remaining := by
  obtain ⟨cs⟩ := x
  exact length_le_sum_of_wf cs (fun d hd => hx d hd)

theorem chunk_nil_of_remaining_zero (x : ChunkCursor) (hx : x.WF)
    (h : x.remaining = 0) : x.chunks = [] := by
  obtain ⟨cs⟩ := x
  exact sum_eq_zero_of_wf cs (fun d hd => hx d hd) h

instance (x : ChunkCursor) : Decidable x.WF :=
  inferInstanceAs (Decidable (∀ c ∈ x.chunks, c ≠ []))

/-- C2: `advance(n)` follows the drain-first-then-second algorithm: with
`ra = remaining(first)`, if `ra > 0` and `ra ≥ n` only the first segment is
advanced by `n`; if `0 < ra < n` the first is advanced by `ra` (fully
draining it) and the second by `n - ra`; if `ra = 0` the second is advanced
by `n`.  `advance_mut(n)` follows the identical algorithm over
`remaining_mut`. -/
theorem chain_advance_drain_first_algorithm
    {α β γ δ : Type} [Buf α] [Buf β] [BufMut γ] [BufMut δ]
    (c : Chain α β) (d : Chain γ δ) (n m : Nat) :
    Chain.advance c n
      = (if 0 < Buf.remaining c.a then
           if Buf.remaining c.a ≥ n then { c with a := Buf.advance c.a n }
           else { a := Buf.advance c.a (Buf.remaining c.a),
                  b := Buf.advance c.b (n - Buf.remaining c.a) }
         else { c with b := Buf.advance c.b n })
  ∧ Chain.advanceMut d m
      = (if 0 < BufMut.remainingMut d.a then
           if BufMut.remainingMut d.a ≥ m then
             { d with a := BufMut.advanceMut d.a m }
           else { a := BufMut.advanceMut d.a (BufMut.remainingMut d.a),
                  b := BufMut.advanceMut d.b (m - BufMut.remainingMut d.a) }
         else { d with b := BufMut.advanceMut d.b m }) := by
  constructor
  · by_cases h0 : Buf.remaining c.a = 0
    · rw [chain_advance_second_only c n h0, if_neg (by omega)]
    · rw [if_pos (Nat.pos_of_ne_zero h0)]
      by_cases hn : Buf.remaining c.a ≥ n
      · rw [chain_advance_first_only c n h0 hn, if_pos hn]
      · rw [chain_advance_split c n h0 hn, if_neg hn]
  · by_cases h0 : BufMut.remainingMut d.a = 0
    · rw [chain_advanceMut_second_only d m h0, if_neg (by omega)]
    · rw [if_pos (Nat.pos_of_ne_zero h0)]
      by_cases hm : BufMut.remainingMut d.a ≥ m
      · rw [chain_advanceMut_first_only d m h0 hm, if_pos hm]
      · rw [chain_advanceMut_split d m h0 hm, if_neg hm]

/-- C4: `remaining()` equals `remaining(first) + remaining(second)` and
`remaining_mut()` equals `remaining_mut(first) + remaining_mut(second)`;
both are pure queries, modelled as functions of the unchanged adapter value
that modify neither the adapter nor its segments. -/
theorem chain_remaining_is_sum
    {α β γ δ : Type} [Buf α] [Buf β] [BufMut γ] [BufMut δ]
    (c : Chain α β) (d : Chain γ δ) :
    Chain.remaining c = Buf.remaining c.a + Buf.remaining c.b
  ∧ Chain.remainingMut d = BufMut.remainingMut d.a + BufMut.remainingMut d.b :=
  ⟨rfl, rfl⟩

/-- C5: the current slice is the first segment's slice when
`remaining(first) > 0` and the second segment's otherwise (likewise for the
mutable slice over `remaining_mut`); and after advancing `Chain(A, B)` by
exactly `remaining(A)`, the current slice equals `B`'s original slice while
the second segment is still exactly the original `B` (the drained first
segment is never consulted again). -/
theorem chain_bytes_first_preferred
    {α β γ δ : Type} [Buf α] [Buf β] [BufMut γ] [BufMut δ]
    (c : Chain α β) (d : Chain γ δ) (A B : ChunkCursor) :
    Chain.bytes c
      = (if 0 < Buf.remaining c.a then Buf.bytes c.a else Buf.bytes c.b)
  ∧ Chain.bytesMut d
      = (if 0 < BufMut.remainingMut d.a then BufMut.bytesMut d.a
         else BufMut.bytesMut d.b)
  ∧ Chain.bytes (Chain.advance (Chain.new A B) A.remaining) = B.bytes
  ∧ (Chain.advance (Chain.new A B) A.remaining).b = B := by
  have key : Chain.advance (Chain.new A B) A.remaining
      = Chain.new (A.advance A.remaining) B := by
    by_cases h0 : A.remaining = 0
    · rw [chain_advance_second_only (Chain.new A B) A.remaining
        (show Buf.remaining (Chain.new A B).a = 0 from h0)]
      rw [h0, chunk_advance_zero A]
      show Chain.new A (B.advance 0) = Chain.new A B
      rw [chunk_advance_zero B]
    · rw [chain_advance_first_only (Chain.new A B) A.remaining
        (show Buf.remaining (Chain.new A B).a ≠ 0 from h0)
        (show Buf.remaining (Chain.new A B).a ≥ A.remaining from Nat.le_refl _)]
      rfl
  refine ⟨rfl, rfl, ?_, ?_⟩
  · rw [key]
    unfold Chain.bytes
    rw [if_neg (by
      show ¬ (0 < (A.advance A.remaining).remaining)
      rw [chunk_remaining_advance]
      omega)]
    rfl
  · rw [key]
    rfl

/-- C7: every capability operation on `Either::Left(x)` returns the same
result and leaves the wrapped cursor in the same state as the operation
applied to `x` directly, and symmetrically for `Right(y)`; the dual adapter
adds no state or semantics of its own. -/
theorem either_forwards_transparently
    {α β : Type} [Buf α] [Buf β] [BufMut α] [BufMut β]
    (x : α) (y : β) (n k len : Nat) (src : List Nat) :
    Either.remaining (Either.left x : Either α β) = Buf.remaining x
  ∧ Either.bytes (Either.left x : Either α β) = Buf.bytes x
  ∧ Either.bytesVectored (Either.left x : Either α β) k = Buf.bytesVectored x k
  ∧ Either.advance (Either.left x : Either α β) n
      = Either.left (Buf.advance x n)
  ∧ Either.copyToSlice (Either.left x : Either α β) len
      = ((Buf.copyToSlice x len).1, Either.left (Buf.copyToSlice x len).2)
  ∧ Either.remainingMut (Either.left x : Either α β) = BufMut.remainingMut x
  ∧ Either.bytesMut (Either.left x : Either α β) = BufMut.bytesMut x
  ∧ Either.bytesVectoredMut (Either.left x : Either α β) k
      = BufMut.bytesVectoredMut x k
  ∧ Either.advanceMut (Either.left x : Either α β) n
      = Either.left (BufMut.advanceMut x n)
  ∧ Either.putSlice (Either.left x : Either α β) src
      = Either.left (BufMut.putSlice x src)
  ∧ Either.remaining (Either.right y : Either α β) = Buf.remaining y
  ∧ Either.bytes (Either.right y : Either α β) = Buf.bytes y
  ∧ Either.bytesVectored (Either.right y : Either α β) k = Buf.bytesVectored y k
  ∧ Either.advance (Either.right y : Either α β) n
      = Either.right (Buf.advance y n)
  ∧ Either.copyToSlice (Either.right y : Either α β) len
      = ((Buf.copyToSlice y len).1, Either.right (Buf.copyToSlice y len).2)
  ∧ Either.remainingMut (Either.right y : Either α β) = BufMut.remainingMut y
  ∧ Either.bytesMut (Either.right y : Either α β) = BufMut.bytesMut y
  ∧ Either.bytesVectoredMut (Either.right y : Either α β) k
      = BufMut.bytesVectoredMut y k
  ∧ Either.advanceMut (Either.right y : Either α β) n
      = Either.right (BufMut.advanceMut y n)
  ∧ Either.putSlice (Either.right y : Either α β) src
      = Either.right (BufMut.putSlice y src) :=
  ⟨rfl, rfl, rfl, rfl, rfl, rfl, rfl, rfl, rfl, rfl,
   rfl, rfl, rfl, rfl, rfl, rfl, rfl, rfl, rfl, rfl⟩

/-- C9: advancing a `Chain` by more than its total remaining count is not
clamped: the first segment is drained of its `remaining(first)` bytes (or
left untouched when already empty) and the excess count
`n - remaining(first)` — which still exceeds the second segment's remaining
count — is passed verbatim to the second segment's `advance`, so the failure
behavior is exactly that of the underlying second cursor. -/
theorem chain_advance_excess_forwarded {α β : Type} [Buf α] [Buf β]
    (c : Chain α β) (n : Nat) (h : Chain.remaining c < n) :
    Chain.advance c n
      = { a := (if Buf.remaining c.a = 0 then c.a
                else Buf.advance c.a (Buf.remaining c.a)),
          b := Buf.advance c.b (n - Buf.remaining c.a) }
  ∧ Buf.remaining c.b < n - Buf.remaining c.a := by
  have hlt : Buf.remaining c.a < n := by
    unfold Chain.remaining at h
    omega
  constructor
  · by_cases h0 : Buf.remaining c.a = 0
    · rw [chain_advance_second_only c n h0, if_pos h0, h0, Nat.sub_zero]
    · rw [chain_advance_split c n h0 (by omega), if_neg h0]
  · unfold Chain.remaining at h
    omega

/-- C9 witness: the out-of-range advance decomposition evaluated on
`Chain("hello", "world")` with `n = 20`. -/
theorem chain_advance_excess_forwarded_witness :
    Chain.advance (Chain.new helloCursor worldCursor) 20
      = { a := (if Buf.remaining (Chain.new helloCursor worldCursor).a = 0
                then (Chain.new helloCursor worldCursor).a
                else Buf.advance (Chain.new helloCursor worldCursor).a
                  (Buf.remaining (Chain.new helloCursor worldCursor).a)),
          b := Buf.advance (Chain.new helloCursor worldCursor).b
            (20 - Buf.remaining (Chain.new helloCursor worldCursor).a) }
  ∧ Buf.remaining (Chain.new helloCursor worldCursor).b
      < 20 - Buf.remaining (Chain.new helloCursor worldCursor).a :=
  chain_advance_excess_forwarded (Chain.new helloCursor worldCursor) 20
    (by decide)

/-- C10: when the first segment has remaining bytes and the count fits in
it, `advance` only advances the first segment and the second segment's state
is entirely unchanged; the same frame property holds for `advance_mut` over
`remaining_mut`. -/
theorem chain_advance_within_first_frame
    {α β γ δ : Type} [Buf α] [Buf β] [BufMut γ] [BufMut δ]
    (c : Chain α β) (d : Chain γ δ) (n m : Nat)
    (h1 : 0 < Buf.remaining c.a) (h2 : n ≤ Buf.remaining c.a)
    (h3 : 0 < BufMut.remainingMut d.a) (h4 : m ≤ BufMut.remainingMut d.a) :
    Chain.advance c n = { c with a := Buf.advance c.a n }
  ∧ Chain.advanceMut d m = { d with a := BufMut.advanceMut d.a m } :=
  ⟨chain_advance_first_only c n (by omega) h2,
   chain_advanceMut_first_only d m (by omega) h4⟩

/-- C10 witness: the frame property evaluated on `Chain("hello", "world")`
with in-range counts 2 and 3. -/
theorem chain_advance_within_first_frame_witness :
    Chain.advance (Chain.new helloCursor worldCursor) 2
      = { Chain.new helloCursor worldCursor with
          a := Buf.advance (Chain.new helloCursor worldCursor).a 2 }
  ∧ Chain.advanceMut (Chain.new helloCursor worldCursor) 3
      = { Chain.new helloCursor worldCursor with
          a := BufMut.advanceMut (Chain.new helloCursor worldCursor).a 3 } :=
  chain_advance_within_first_frame
    (Chain.new helloCursor worldCursor) (Chain.new helloCursor worldCursor) 2 3
    (by decide) (by decide) (by decide) (by decide)

/-- C1: for all cursors `A`, `B` and every `n ≤ remaining(A) + remaining(B)`,
advancing `Chain(A, B)` by `n` yields, as observed by repeatedly reading the
current slice and advancing past it, the same byte sequence as dropping `n`
bytes from the flat concatenation `content(A) ++ content(B)`. -/
theorem chain_advance_observed_refines_concat (A B : ChunkCursor)
    (hA : A.WF) (hB : B.WF) (n : Nat)
    (hn : n ≤ A.remaining + B.remaining) :
    readout (Chain.remaining (Chain.advance (Chain.new A B) n))
        (Chain.advance (Chain.new A B) n)
      = (A.content ++ B.content).drop n := by
  have lenA : A.content.length = A.remaining := content_length A
  by_cases h0 : A.remaining = 0
  · have hAnil : A.chunks = [] := chunk_nil_of_remaining_zero A hA h0
    have hAcontent : A.content = [] := by
      unfold ChunkCursor.content
      rw [hAnil]
      rfl
    rw [chain_advance_second_only (Chain.new A B) n
      (show Buf.remaining (Chain.new A B).a = 0 from h0)]
    show readout (Chain.remaining (Chain.new A (B.advance n)))
        (Chain.new A (B.advance n)) = _
    rw [readout_chain (Chain.remaining (Chain.new A (B.advance n))) A
      (B.advance n) hA (chunk_wf_advance B hB n) (by
        have c1 : Chain.remaining (Chain.new A (B.advance n))
            = A.remaining + (B.advance n).remaining := rfl
        have c2 := chunk_length_le_remaining A hA
        have c3 := chunk_length_le_remaining (B.advance n)
          (chunk_wf_advance B hB n)
        omega)]
    rw [chunk_content_advance, hAcontent, List.nil_append, List.nil_append]
  · by_cases hsmall : n ≤ A.remaining
    · rw [chain_advance_first_only (Chain.new A B) n
        (show Buf.remaining (Chain.new A B).a ≠ 0 from h0)
        (show Buf.remaining (Chain.new A B).a ≥ n from hsmall)]
      show readout (Chain.remaining (Chain.new (A.advance n) B))
          (Chain.new (A.advance n) B) = _
      rw [readout_chain (Chain.remaining (Chain.new (A.advance n) B))
        (A.advance n) B (chunk_wf_advance A hA n) hB (by
          have c1 : Chain.remaining (Chain.new (A.advance n) B)
              = (A.advance n).remaining + B.remaining := rfl
          have c2 := chunk_length_le_remaining (A.advance n)
            (chunk_wf_advance A hA n)
          have c3 := chunk_length_le_remaining B hB
          omega)]
      rw [chunk_content_advance, List.drop_append_eq_append_drop]
      rw [show n - A.content.length = 0 by omega, List.drop_zero]
    · rw [chain_advance_split (Chain.new A B) n
        (show Buf.remaining (Chain.new A B).a ≠ 0 from h0)
        (show ¬ Buf.remaining (Chain.new A B).a ≥ n from hsmall)]
      show readout
          (Chain.remaining
            (Chain.new (A.advance A.remaining) (B.advance (n - A.remaining))))
          (Chain.new (A.advance A.remaining) (B.advance (n - A.remaining)))
        = _
      rw [readout_chain _ (A.advance A.remaining) (B.advance (n - A.remaining))
        (chunk_wf_advance A hA A.remaining)
        (chunk_wf_advance B hB (n - A.remaining)) (by
          have c1 : Chain.remaining
              (Chain.new (A.advance A.remaining) (B.advance (n - A.remaining)))
              = (A.advance A.remaining).remaining
                  + (B.advance (n - A.remaining)).remaining := rfl
          have c2 := chunk_length_le_remaining (A.advance A.remaining)
            (chunk_wf_advance A hA A.remaining)
          have c3 := chunk_length_le_remaining (B.advance (n - A.remaining))
            (chunk_wf_advance B hB (n - A.remaining))
          omega)]
      rw [chunk_content_advance, chunk_content_advance,
        show A.content.drop A.remaining = [] from
          List.drop_eq_nil_of_le (by omega),
        List.nil_append, List.drop_append_eq_append_drop,
        show A.content.drop n = [] from List.drop_eq_nil_of_le (by omega),
        List.nil_append, lenA]

/-- C1 witness: the refinement evaluated on `Chain("hello", "world")` with
`n = 7`. -/
theorem chain_advance_observed_refines_concat_witness :
    readout (Chain.remaining (Chain.advance (Chain.new helloCursor worldCursor) 7))
        (Chain.advance (Chain.new helloCursor worldCursor) 7)
      = (helloCursor.content ++ worldCursor.content).drop 7 :=
  chain_advance_observed_refines_concat helloCursor worldCursor
    (by decide) (by decide) 7 (by decide)

theorem chain_toBytes_eq [Buf α] [Buf β] (c : Chain α β) :
    Chain.toBytes c
      = ((putAll (Buf.remaining c.b) (Buf.toBytes c.a).1 c.b).1,
         { a := (Buf.toBytes c.a).2,
           b := (putAll (Buf.remaining c.b) (Buf.toBytes c.a).1 c.b).2 }) := rfl

/-- C3: materializing `Chain(A, B)` to a contiguous buffer returns exactly
`content(A) ++ content(B)`, and afterwards both segments are fully drained,
so the adapter's `remaining()` is `0`. -/
theorem chain_to_bytes_materializes (A B : ChunkCursor) (hB : B.WF) :
    Chain.toBytes (Chain.new A B)
      = (A.content ++ B.content,
         Chain.new (ChunkCursor.mk []) (ChunkCursor.mk []))
  ∧ Chain.remaining (Chain.toBytes (Chain.new A B)).2 = 0 := by
  obtain ⟨bcs⟩ := B
  have hwf : ∀ c ∈ bcs, c ≠ [] := fun d hd => hB d hd
  have hlen : bcs.length ≤ Buf.remaining (ChunkCursor.mk bcs) := by
    rw [buf_remaining_chunk]
    exact length_le_sum_of_wf bcs hwf
  have hput := putAll_chunk (Buf.remaining (ChunkCursor.mk bcs))
    A.content bcs hwf hlen
  constructor
  · show ((putAll (Buf.remaining (ChunkCursor.mk bcs)) A.content
        (ChunkCursor.mk bcs)).1,
      ({ a := ChunkCursor.mk [],
         b := (putAll (Buf.remaining (ChunkCursor.mk bcs)) A.content
           (ChunkCursor.mk bcs)).2 } : Chain ChunkCursor ChunkCursor))
      = (A.content ++ (ChunkCursor.mk bcs).content,
         Chain.new (ChunkCursor.mk []) (ChunkCursor.mk []))
    rw [hput]
    rfl
  · show Chain.remaining
      ({ a := ChunkCursor.mk [],
         b := (putAll (Buf.remaining (ChunkCursor.mk bcs)) A.content
           (ChunkCursor.mk bcs)).2 } : Chain ChunkCursor ChunkCursor) = 0
    rw [hput]
    rfl

/-- C3 witness: `Chain("hello", "world")` materializes to `"helloworld"`
(10 bytes) with both segments drained. -/
theorem chain_to_bytes_materializes_witness :
    Chain.toBytes (Chain.new helloCursor worldCursor)
      = (helloCursor.content ++ worldCursor.content,
         Chain.new (ChunkCursor.mk []) (ChunkCursor.mk []))
  ∧ Chain.remaining (Chain.toBytes (Chain.new helloCursor worldCursor)).2 = 0 :=
  chain_to_bytes_materializes helloCursor worldCursor (by decide)

/-- C6: the vectored read view fills slots first from the first segment and
then continues into the leftover slots from the second, the returned count
being the number of views filled; over `Chain("hello", "world")` with 4
slots it fills 2 slots ("hello", "world"), after advancing 2 it fills
2 slots ("llo", "world"), after 3 more it fills 1 slot ("world"), and after
3 more it fills 1 slot ("ld"). -/
theorem chain_bytes_vectored_fills_in_order {α β : Type} [Buf α] [Buf β]
    (c : Chain α β) (k : Nat) :
    Chain.bytesVectored c k
      = Buf.bytesVectored c.a k
          ++ Buf.bytesVectored c.b (k - (Buf.bytesVectored c.a k).length)
  ∧ Chain.bytesVectored (Chain.new helloCursor worldCursor) 4
      = [[104, 101, 108, 108, 111], [119, 111, 114, 108, 100]]
  ∧ Chain.bytesVectored (Chain.advance (Chain.new helloCursor worldCursor) 2) 4
      = [[108, 108, 111], [119, 111, 114, 108, 100]]
  ∧ Chain.bytesVectored
      (Chain.advance (Chain.advance (Chain.new helloCursor worldCursor) 2) 3) 4
      = [[119, 111, 114, 108, 100]]
  ∧ Chain.bytesVectored
      (Chain.advance
        (Chain.advance (Chain.advance (Chain.new helloCursor worldCursor) 2) 3)
        3) 4
      = [[108, 100]] :=
  ⟨rfl, by decide, by decide, by decide, by decide⟩

/-- C8: the byte iterator over a cursor holding `k = remaining()` bytes
yields exactly `k` single-byte items in order and then terminates (any extra
fuel `m` produces nothing further); collecting them reproduces the cursor's
content exactly.  Stated for an arbitrary cursor and for the iterator built
by `Chain`'s `IntoIterator` implementation. -/
theorem byte_iterator_yields_exactly_content (x A B : ChunkCursor)
    (hx : x.WF) (hA : A.WF) (hB : B.WF) (m : Nat) :
    IntoIter.collect (x.remaining + m) { inner := x } = x.content
  ∧ (IntoIter.collect (x.remaining + m) { inner := x }).length = x.remaining
  ∧ IntoIter.collect (Chain.remaining (Chain.new A B) + m)
      (Chain.intoIter (Chain.new A B))
      = A.content ++ B.content := by
  obtain ⟨cs⟩ := x
  have h1 : IntoIter.collect ((ChunkCursor.mk cs).remaining + m)
      { inner := ChunkCursor.mk cs } = cs.flatten :=
    collect_chunk _ cs (fun d hd => hx d hd) (by
      have e : (ChunkCursor.mk cs).remaining = (cs.map List.length).sum := rfl
      omega)
  refine ⟨h1, ?_, ?_⟩
  · rw [h1]
    show cs.flatten.length = (ChunkCursor.mk cs).remaining
    rw [List.length_flatten]
    rfl
  · exact collect_chain (Chain.remaining (Chain.new A B) + m) A B hA hB (by
      have e : Chain.remaining (Chain.new A B) = A.remaining + B.remaining := rfl
      omega)

/-- C8 witness: the iterator contract evaluated on the `"hello"` cursor and
on `Chain("hello", "world")`, with one unit of surplus fuel. -/
theorem byte_iterator_yields_exactly_content_witness :
    IntoIter.collect (helloCursor.remaining + 1) { inner := helloCursor }
      = helloCursor.content
  ∧ (IntoIter.collect (helloCursor.remaining + 1)
      { inner := helloCursor }).length = helloCursor.remaining
  ∧ IntoIter.collect
      (Chain.remaining (Chain.new helloCursor worldCursor) + 1)
      (Chain.intoIter (Chain.new helloCursor worldCursor))
      = helloCursor.content ++ worldCursor.content :=
  byte_iterator_yields_exactly_content helloCursor helloCursor worldCursor
    (by decide) (by decide) (by decide) 1

end BytesVerify
